import Mathlib

/-!
Verification of the consumption-analytics engine in `src/main.py`.

The computation layer of the program is a set of pure functions over one
matrix of per-apartment, per-hour readings.  We embed it shallowly:

* a matrix is a `List (List ℝ)` of rows (apartments), a column (an hour)
  is extracted with `col`;
* `np.mean` / `np.var` / `np.std` over a vector become `mean`, `popVar`
  and `popStd` (numpy defaults to the population formulas, divisor `N`);
* code that raises `ValueError` returns `Except String`;
* the peak-contribution loop, which can raise `IndexError` in Python when
  an index is out of bounds, returns `Option`; any out-of-bounds access
  yields `none`;
* `np.argsort` on the stability scores is modelled as the stable ascending
  sort, i.e. sorting indices by the lexicographic order (score, index);
  numpy's default introsort runs plain insertion sort on arrays shorter
  than 16 elements, so this is exact for the 5-element example used below.
-/

open Classical

noncomputable section

/-- Arithmetic mean of a list of reals, `np.mean` / `np.average`.
For the empty list this is `0/0 = 0` in Lean; all statements below that
depend on the mean assume the list is nonempty. -/
def mean (l : List ℝ) : ℝ := l.sum / l.length

/-- Population variance, `np.var` (divisor `N`, not `N - 1`). -/
def popVar (l : List ℝ) : ℝ := mean (l.map (fun x => (x - mean l) ^ 2))

/-- Population standard deviation, `np.std`. -/
def popStd (l : List ℝ) : ℝ := Real.sqrt (popVar l)

/-- The `np.median` of a list: middle element of the sorted list, or the
mean of the two middle elements for even length. -/
def median (l : List ℝ) : ℝ :=
  let s := List.insertionSort (fun a b : ℝ => a ≤ b) l
  if l.length % 2 = 1 then s.getD (l.length / 2) 0
  else (s.getD (l.length / 2 - 1) 0 + s.getD (l.length / 2) 0) / 2

/-- Column `j` of a row-major matrix: `apartment_data[:, j]`. -/
def col (M : List (List ℝ)) (j : ℕ) : List ℝ := M.map (fun r => r.getD j 0)

/-- Number of columns of a row-major matrix (length of its first row). -/
def width (M : List (List ℝ)) : ℕ := (M.headD []).length

/-- The matrix has `A` rows, each of length `H`. -/
def IsRect (M : List (List ℝ)) (A H : ℕ) : Prop :=
  M.length = A ∧ ∀ r ∈ M, r.length = H

/-- `compute_apartment_energy_total` (src/main.py line 52): `np.sum(axis=1)`. -/
def compute_apartment_energy_total (M : List (List ℝ)) : List ℝ :=
  M.map List.sum

/-- `compute_apartment_energy_averages` (line 57): `np.average(axis=1)`. -/
def compute_apartment_energy_averages (M : List (List ℝ)) : List ℝ :=
  M.map mean

/-- `compute_population_usage_statistics` (line 61): mean, median and
population std of the per-apartment averages. -/
def compute_population_usage_statistics (avg : List ℝ) : ℝ × ℝ × ℝ :=
  (mean avg, median avg, popStd avg)

/-- `compute_high_consumption_flags` (line 68): threshold `mean + 0.7*std`
and the boolean vector `apartment_avg > THRESHOLD` (strict), given here as
a predicate on the row index. -/
def compute_high_consumption_flags (avg : List ℝ) (m s : ℝ) : ℝ × (ℕ → Prop) :=
  (m + 0.7 * s, fun i => avg.getD i 0 > m + 0.7 * s)

/-- `compute_time_interval_averages` (line 79): `np.average(axis=0)`. -/
def compute_time_interval_averages (M : List (List ℝ)) : List ℝ :=
  (List.range (width M)).map (fun j => mean (col M j))

/-- `compute_time_interval_maxima` (line 83): `np.max(axis=0)`, using the
head of the column as the fold seed (columns are nonempty when `A ≥ 1`). -/
def compute_time_interval_maxima (M : List (List ℝ)) : List ℝ :=
  (List.range (width M)).map (fun j => (col M j).foldr max ((col M j).headD 0))

/-- `compute_peak_time_intervals` (line 87): threshold
`mean(time_avg) + k*std(time_avg)` and the strict flags `time_avg > threshold`,
given as a predicate on the hour index. -/
def compute_peak_time_intervals (tavg : List ℝ) (k : ℝ) : ℝ × (ℕ → Prop) :=
  (mean tavg + k * popStd tavg, fun j => tavg.getD j 0 > mean tavg + k * popStd tavg)

/-- One entry of the `peak_analysis` list built by
`compute_peak_contribution_distribution` (lines 122-127): the dict with keys
`hour_index`, `total_energy`, `significant_apartments`, `contribution_ratio`. -/
structure PeakRecord where
  hour_index : ℕ
  total_energy : ℝ
  significant_apartments : ℕ
  contribution_ratio : ℝ

/-- The values of an hour column strictly above `hour_mean + hour_std`
(line 110, `hour_data > (hour_mean + hour_std)`): the data selected by
`significant_mask`. -/
def significantValues (hd : List ℝ) : List ℝ :=
  hd.filter (fun x => decide (x > mean hd + popStd hd))

/-- The record appended for one peak hour (lines 105-127): column mean/std,
significant mask, `contribution_ratio = significant_energy / total_energy`
if `total_energy > 0` else `0`. -/
def hourRecord (j : ℕ) (hd : List ℝ) : PeakRecord :=
  { hour_index := j
    total_energy := hd.sum
    significant_apartments := (significantValues hd).length
    contribution_ratio :=
      if hd.sum > 0 then (significantValues hd).sum / hd.sum else 0 }

/-- Column `j` of the matrix as numpy reads it: `apartment_data[:, j]`,
`none` (IndexError) when `j` is out of range for some row. -/
def colGet? (M : List (List ℝ)) (j : ℕ) : Option (List ℝ) :=
  if ∀ r ∈ M, j < r.length then some (col M j) else none

/-- The loop body of `compute_peak_contribution_distribution` (lines 100-127)
over a list of hour indices: skip unflagged hours, build an `hourRecord` for
flagged ones; `none` models the IndexError raised on an out-of-bounds access
to `peak_flags[hour_index]` or `apartment_data[:, hour_index]`. -/
def peakLoop (M : List (List ℝ)) (flags : List Bool) : List ℕ → Option (List PeakRecord)
  | [] => some []
  | j :: rest =>
    match flags.get? j with
    | none => none
    | some b =>
      if b then
        match colGet? M j with
        | none => none
        | some hd => (peakLoop M flags rest).map (fun l => hourRecord j hd :: l)
      else peakLoop M flags rest

/-- `compute_peak_contribution_distribution` (line 97).  The source iterates
`for hour_index in range(len(columns))`; only the length of the string list
`columns` matters, so it is passed as `numCols`. -/
def compute_peak_contribution_distribution (numCols : ℕ) (M : List (List ℝ))
    (flags : List Bool) : Option (List PeakRecord) :=
  peakLoop M flags (List.range numCols)

/-- `compute_apartment_variance` (line 134): `np.var(axis=1)`. -/
def compute_apartment_variance (M : List (List ℝ)) : List ℝ :=
  M.map popVar

/-- `compute_apartment_std` (line 139): `np.std(axis=1)`. -/
def compute_apartment_std (M : List (List ℝ)) : List ℝ :=
  M.map popStd

/-- `compute_apartment_coefficient_of_variation` (line 144): raises
`ValueError` when any apartment average is exactly `0`, else the element-wise
quotient `apartment_std / apartment_avg`. -/
def compute_apartment_coefficient_of_variation (avg std : List ℝ) :
    Except String (List ℝ) :=
  if ∃ x ∈ avg, x = 0 then Except.error ("Can not divide by zero.")
  else Except.ok (List.zipWith (fun s a => s / a) std avg)

/-- `compute_stability_scores` (line 152): `1 / (1 + apartment_cv)`. -/
def compute_stability_scores (cv : List ℝ) : List ℝ :=
  cv.map (fun c => 1 / (1 + c))

/-- `np.min` of a list (used per column by the min-max normalization). -/
def listMin : List ℝ → ℝ
  | [] => 0
  | [x] => x
  | x :: y :: t => min x (listMin (y :: t))

/-- `np.max` of a list. -/
def listMax : List ℝ → ℝ
  | [] => 0
  | [x] => x
  | x :: y :: t => max x (listMax (y :: t))

/-- `compute_min_max_normalized_profiles` (line 159): per-column
`(v - min_col) / (max_col - min_col)`, raising `ValueError` when any
column's range `max - min` is `0`. -/
def compute_min_max_normalized_profiles (M : List (List ℝ)) :
    Except String (List (List ℝ)) :=
  if ∃ j < width M, listMax (col M j) - listMin (col M j) = 0 then
    Except.error ("Cannot normalize: at least one hour has zero variance")
  else
    Except.ok (M.map (fun row => (List.range (width M)).map (fun j =>
      (row.getD j 0 - listMin (col M j)) / (listMax (col M j) - listMin (col M j)))))

/-- `compute_z_score_normalized_profiles` (line 171): per-column
`(v - mean_col) / std_col`, raising `ValueError` when any column's
population std is `0`. -/
def compute_z_score_normalized_profiles (M : List (List ℝ)) :
    Except String (List (List ℝ)) :=
  if ∃ j < width M, popStd (col M j) = 0 then
    Except.error ("Cannot z-normalize: at least one hour has zero std")
  else
    Except.ok (M.map (fun row => (List.range (width M)).map (fun j =>
      (row.getD j 0 - mean (col M j)) / popStd (col M j))))

/-- The interpretation policy of `print_peak_contribution_distribution`
(lines 265-270), a function of the record's `significant_apartments` count
and `contribution_ratio`, with the branches tried in source order. -/
def peak_interpretation (significant_count : ℕ) (ratio : ℝ) : String :=
  if significant_count ≤ 2 ∧ ratio > 0.5 then
    "Peak driven by a few extreme consumers."
  else if significant_count > 2 ∧ ratio > 0.5 then
    "Peak driven by several high-usage apartments."
  else
    "Peak caused by moderate increases across apartments."

/-- The strict total order in which `np.argsort` lists the indices of the
score vector: ascending by score, ties by original index (a stable sort;
numpy's introsort is insertion sort, hence stable, below 16 elements). -/
def scoreLe (scores : List ℚ) (i j : ℕ) : Prop :=
  scores.getD i 0 < scores.getD j 0 ∨ (scores.getD i 0 = scores.getD j 0 ∧ i ≤ j)

instance (scores : List ℚ) : DecidableRel (scoreLe scores) := fun _ _ =>
  inferInstanceAs (Decidable (_ ∨ _))

/-- `np.argsort(stability_scores)` (line 300), modelled as the stable
ascending sort of the indices `0, …, len-1` by score. -/
def argsort (scores : List ℚ) : List ℕ :=
  List.insertionSort (scoreLe scores) (List.range scores.length)

/-- Python's `l[-n:]`: the last `n` elements, the whole list when `n = 0`
(since `l[-0:] = l[0:]`) or when `n ≥ len(l)`. -/
def takeLast {α : Type _} (l : List α) (n : ℕ) : List α :=
  if n = 0 then l else l.drop (l.length - n)

/-- The ranking computed by `print_most_stable_and_irregular_apartments`
(lines 297-318): `sorted_indices = np.argsort(scores)`, most stable
`sorted_indices[-top_n:][::-1]`, most unstable `sorted_indices[:top_n]`. -/
def rank_stability (scores : List ℚ) (top_n : ℕ) : List ℕ × List ℕ :=
  let sorted_indices := argsort scores
  ((takeLast sorted_indices top_n).reverse, sorted_indices.take top_n)

/-- The 2×3 example matrix of the spec's end-to-end property. -/
def exampleMatrix : List (List ℝ) := [[1, 2, 3], [4, 5, 9]]

section ListLemmas

variable {α β : Type _}

theorem getD_map (f : α → β) (d : β) (d' : α) :
    ∀ (l : List α) (i : ℕ), i < l.length → (l.map f).getD i d = f (l.getD i d')
  | a :: l, 0, _ => rfl
  | a :: l, i + 1, h => by
    simpa using getD_map f d d' l i (by simpa using h)

theorem getD_mem (d : α) : ∀ (l : List α) (i : ℕ), i < l.length → l.getD i d ∈ l
  | a :: l, 0, _ => List.mem_cons_self _ _
  | a :: l, i + 1, h =>
    List.mem_cons_of_mem _ (getD_mem d l i (by simpa using h))

theorem mem_iff_getD (d : α) (x : α) (l : List α) :
    x ∈ l ↔ ∃ i, i < l.length ∧ l.getD i d = x := by
  induction l with
  | nil => simp
  | cons a l ih =>
    simp only [List.mem_cons, ih, List.length_cons]
    constructor
    · rintro (rfl | ⟨i, hi, hg⟩)
      · exact ⟨0, by omega, rfl⟩
      · exact ⟨i + 1, by omega, by simpa using hg⟩
    · rintro ⟨i, hi, hg⟩
      cases i with
      | zero => exact Or.inl (by simpa using hg.symm)
      | succ i => exact Or.inr ⟨i, by omega, by simpa using hg⟩

theorem getD_zipWith (f : α → α → β) (d : β) (d' : α) :
    ∀ (l₁ l₂ : List α) (i : ℕ), i < l₁.length → i < l₂.length →
      (List.zipWith f l₁ l₂).getD i d = f (l₁.getD i d') (l₂.getD i d')
  | a :: l₁, b :: l₂, 0, _, _ => rfl
  | a :: l₁, b :: l₂, i + 1, h₁, h₂ => by
    simpa using getD_zipWith f d d' l₁ l₂ i (by simpa using h₁) (by simpa using h₂)

theorem getD_range_map (d : β) :
    ∀ (n : ℕ) (f : ℕ → β) (i : ℕ), i < n → ((List.range n).map f).getD i d = f i := by
  intro n
  induction n with
  | zero => intro f i hi; omega
  | succ n ih =>
    intro f i hi
    rw [List.range_succ_eq_map]
    cases i with
    | zero => rfl
    | succ i =>
      have : i < n := by omega
      simpa [List.map_map] using ih (fun m => f (m + 1)) i this

theorem getD_replicate_bool (b : Bool) :
    ∀ (n i : ℕ), i < n → (List.replicate n b).getD i false = b
  | n + 1, 0, _ => rfl
  | n + 1, i + 1, h => by
    rw [List.replicate_succ, List.getD_cons_succ]
    exact getD_replicate_bool b n i (by omega)

theorem get?_eq_some_getD (d : α) :
    ∀ (l : List α) (i : ℕ), i < l.length → l.get? i = some (l.getD i d)
  | a :: l, 0, _ => rfl
  | a :: l, i + 1, h => by
    simpa using get?_eq_some_getD d l i (by simpa using h)

theorem get?_eq_none_of_le : ∀ (l : List α) (i : ℕ), l.length ≤ i → l.get? i = none
  | [], _, _ => rfl
  | a :: l, i + 1, h => by
    simpa using get?_eq_none_of_le l i (by simpa using h)

theorem sum_filter_le_sum (p : α → Bool) (f : α → ℝ) :
    ∀ l : List α, (∀ x ∈ l, 0 ≤ f x) → ((l.filter p).map f).sum ≤ (l.map f).sum := by
  intro l
  induction l with
  | nil => simp
  | cons a l ih =>
    intro h
    have ha : 0 ≤ f a := h a (List.mem_cons_self _ _)
    have hl := ih (fun x hx => h x (List.mem_cons_of_mem _ hx))
    by_cases hp : p a
    · simpa [List.filter_cons, hp] using hl
    · simp only [List.filter_cons, hp, Bool.false_eq_true, if_false, List.map_cons,
        List.sum_cons]
      linarith

theorem mul_length_lt_sum (c : ℝ) :
    ∀ l : List ℝ, l ≠ [] → (∀ x ∈ l, c < x) → c * l.length < l.sum := by
  intro l
  induction l with
  | nil => intro h; exact absurd rfl h
  | cons a l ih =>
    intro _ h
    have ha : c < a := h a (List.mem_cons_self _ _)
    rcases List.eq_nil_or_concat l with hl | _
    · subst hl; simpa using ha
    · rcases l with _ | ⟨b, t⟩
      · simpa using ha
      · have hl := ih (by simp) (fun x hx => h x (List.mem_cons_of_mem _ hx))
        simp only [List.length_cons, List.sum_cons] at hl ⊢
        push_cast
        push_cast at hl
        nlinarith

theorem sum_map_affine (a b : ℝ) :
    ∀ l : List ℝ, (l.map (fun x => a * x + b)).sum = a * l.sum + b * l.length := by
  intro l
  induction l with
  | nil => simp
  | cons x l ih =>
    simp only [List.map_cons, List.sum_cons, ih, List.length_cons]
    push_cast
    ring

end ListLemmas

section StatLemmas

theorem mean_nonneg {l : List ℝ} (h : ∀ x ∈ l, 0 ≤ x) : 0 ≤ mean l :=
  div_nonneg (List.sum_nonneg h) (Nat.cast_nonneg _)

theorem popVar_nonneg (l : List ℝ) : 0 ≤ popVar l := by
  unfold popVar
  exact mean_nonneg (by
    intro x hx
    obtain ⟨y, _, rfl⟩ := List.mem_map.mp hx
    positivity)

theorem popStd_nonneg (l : List ℝ) : 0 ≤ popStd l := Real.sqrt_nonneg _

theorem popStd_eq_zero_iff (l : List ℝ) : popStd l = 0 ↔ popVar l = 0 := by
  unfold popStd
  rw [Real.sqrt_eq_zero']
  constructor
  · intro h; exact le_antisymm h (popVar_nonneg l)
  · intro h; exact le_of_eq h

theorem mean_map_affine (a b : ℝ) {l : List ℝ} (h : l ≠ []) :
    mean (l.map (fun x => a * x + b)) = a * mean l + b := by
  have hl : 0 < l.length := List.length_pos.mpr h
  have hn : (l.length : ℝ) ≠ 0 := Nat.cast_ne_zero.mpr hl.ne'
  unfold mean
  rw [List.length_map, sum_map_affine]
  field_simp

theorem popVar_map_affine (a b : ℝ) {l : List ℝ} (h : l ≠ []) :
    popVar (l.map (fun x => a * x + b)) = a ^ 2 * popVar l := by
  have hmean := mean_map_affine a b h
  unfold popVar
  rw [hmean, List.map_map]
  have hfun : ((fun x => (x - (a * mean l + b)) ^ 2) ∘ fun x => a * x + b) =
      (fun y => a ^ 2 * y + 0) ∘ (fun x => (x - mean l) ^ 2) := by
    funext x
    simp only [Function.comp_apply]
    ring
  rw [hfun, ← List.map_map]
  have hne : l.map (fun x => (x - mean l) ^ 2) ≠ [] := by
    intro hc
    exact h (List.map_eq_nil_iff.mp hc)
  rw [mean_map_affine (a ^ 2) 0 hne]
  ring

/-- Key fact behind C9: if the mean of a nonempty list is at most `c`, not
every entry can strictly exceed `c`. -/
theorem exists_getD_le {l : List ℝ} (h : l ≠ []) {c : ℝ} (hc : mean l ≤ c) :
    ∃ i, i < l.length ∧ ¬ (l.getD i 0 > c) := by
  by_contra hall
  push_neg at hall
  have hmem : ∀ x ∈ l, c < x := by
    intro x hx
    obtain ⟨i, hi, rfl⟩ := (mem_iff_getD 0 x l).mp hx
    exact hall i hi
  have hlt := mul_length_lt_sum c l h hmem
  have hn : (0 : ℝ) < l.length := by
    simpa using List.length_pos.mpr h
  have hsum : l.sum ≤ c * l.length := by
    have := (div_le_iff₀ hn).mp hc
    simpa [mean] using this
  linarith

end StatLemmas

section MatrixLemmas

theorem width_eq {M : List (List ℝ)} {A H : ℕ} (hr : IsRect M A H) (hA : 1 ≤ A) :
    width M = H := by
  rcases M with _ | ⟨r, M⟩
  · exfalso; rw [← hr.1] at hA; simp at hA
  · exact hr.2 r (List.mem_cons_self _ _)

theorem col_length (M : List (List ℝ)) (j : ℕ) : (col M j).length = M.length := by
  simp [col]

theorem col_ne_nil {M : List (List ℝ)} {A H : ℕ} (hr : IsRect M A H) (hA : 1 ≤ A)
    (j : ℕ) : col M j ≠ [] := by
  have : (col M j).length = A := by rw [col_length, hr.1]
  intro hnil
  rw [hnil] at this
  simp at this
  omega

theorem col_mem_nonneg {M : List (List ℝ)} {A H : ℕ} (hr : IsRect M A H)
    (hpos : ∀ r ∈ M, ∀ x ∈ r, 0 ≤ x) {j : ℕ} (hj : j < H) :
    ∀ x ∈ col M j, 0 ≤ x := by
  intro x hx
  obtain ⟨r, hrM, rfl⟩ := List.mem_map.mp hx
  exact hpos r hrM _ (getD_mem 0 r j (by rw [hr.2 r hrM]; exact hj))

theorem col_getD {M : List (List ℝ)} (i j : ℕ) (hi : i < M.length) :
    (col M j).getD i 0 = (M.getD i []).getD j 0 :=
  getD_map (fun r : List ℝ => r.getD j 0) 0 [] M i hi

end MatrixLemmas

/-- Claim C7: for every matrix, `row_total` is the row sum and `row_average`
is `row_total / H`; on `[[1,2,3],[4,5,9]]` the totals are `[6, 18]`, the
averages `[2, 6]`, the population mean `4`, the population variance `4`
(divisor `N = 2`, not `N - 1`), the population std `2`, the apartment
threshold `5.4`, and the flags `[False, True]`. -/
theorem c7_totals_and_averages :
    (∀ (M : List (List ℝ)) (A H : ℕ), IsRect M A H → ∀ i, i < A →
      (compute_apartment_energy_total M).getD i 0 = (M.getD i []).sum
      ∧ (compute_apartment_energy_averages M).getD i 0 =
          (compute_apartment_energy_total M).getD i 0 / H)
    ∧ compute_apartment_energy_total exampleMatrix = [6, 18]
    ∧ compute_apartment_energy_averages exampleMatrix = [2, 6]
    ∧ (compute_population_usage_statistics [2, 6]).1 = 4
    ∧ popVar [2, 6] = 4
    ∧ (compute_population_usage_statistics [2, 6]).2.2 = 2
    ∧ (compute_high_consumption_flags [2, 6] 4 2).1 = 5.4
    ∧ ¬ (compute_high_consumption_flags [2, 6] 4 2).2 0
    ∧ (compute_high_consumption_flags [2, 6] 4 2).2 1 := by
  have hstd : popStd [(2 : ℝ), 6] = 2 := by
    have hv : popVar [(2 : ℝ), 6] = 4 := by
      norm_num [popVar, mean]
    rw [popStd, hv, show (4 : ℝ) = 2 ^ 2 by norm_num,
      Real.sqrt_sq (by norm_num : (0 : ℝ) ≤ 2)]
  refine ⟨?_, ?_, ?_, ?_, ?_, ?_, ?_, ?_, ?_⟩
  · intro M A H hr i hi
    have hi' : i < M.length := by rw [hr.1]; exact hi
    have hrow : M.getD i [] ∈ M := getD_mem [] M i hi'
    have hlen : (M.getD i []).length = H := hr.2 _ hrow
    constructor
    · exact getD_map List.sum 0 [] M i hi'
    · show (M.map mean).getD i 0 = (M.map List.sum).getD i 0 / (H : ℝ)
      rw [getD_map mean 0 [] M i hi', getD_map List.sum 0 [] M i hi', mean, hlen]
  · norm_num [compute_apartment_energy_total, exampleMatrix]
  · norm_num [compute_apartment_energy_averages, exampleMatrix, mean]
  · norm_num [compute_population_usage_statistics, mean]
  · norm_num [popVar, mean]
  · simpa [compute_population_usage_statistics] using hstd
  · norm_num [compute_high_consumption_flags]
  · norm_num [compute_high_consumption_flags]
  · norm_num [compute_high_consumption_flags]

/-- Witness for C7: the general total/average law applied to the example
matrix at row 0. -/
theorem c7_totals_and_averages_witness :
    (compute_apartment_energy_total exampleMatrix).getD 0 0 =
      (exampleMatrix.getD 0 []).sum
    ∧ (compute_apartment_energy_averages exampleMatrix).getD 0 0 =
        (compute_apartment_energy_total exampleMatrix).getD 0 0 / 3 := by
  have h := c7_totals_and_averages.1 exampleMatrix 2 3
    (by constructor <;> simp [exampleMatrix]) 0 (by norm_num)
  exact_mod_cast h

/-- Claim C5: the high-consumption flag of apartment `i` holds iff its
average strictly exceeds `mean + 0.7 * std`; an apartment exactly at the
threshold is never flagged. -/
theorem c5_high_consumption_flags :
    ∀ (avg : List ℝ) (m s : ℝ) (i : ℕ),
      ((compute_high_consumption_flags avg m s).2 i ↔ avg.getD i 0 > m + 0.7 * s)
      ∧ ((compute_high_consumption_flags avg m s).2 i ↔
          avg.getD i 0 > (compute_high_consumption_flags avg m s).1)
      ∧ (avg.getD i 0 = (compute_high_consumption_flags avg m s).1 →
          ¬ (compute_high_consumption_flags avg m s).2 i) := by
  intro avg m s i
  refine ⟨Iff.rfl, Iff.rfl, ?_⟩
  intro h hlt
  simp only [compute_high_consumption_flags] at h hlt
  linarith

/-- Witness for C5: the average `5.4` equals the threshold `4 + 0.7 * 2`
and is not flagged. -/
theorem c5_high_consumption_flags_witness :
    ¬ (compute_high_consumption_flags [(5.4 : ℝ)] 4 2).2 0 :=
  (c5_high_consumption_flags [(5.4 : ℝ)] 4 2 0).2.2
    (by norm_num [compute_high_consumption_flags])

/-- Claim C8: the qualitative interpretation tag attached to a peak record
follows the stated policy in order: few extreme consumers when
`significant_count ≤ 2` and `ratio > 0.5`, several high-usage apartments
when `significant_count > 2` and `ratio > 0.5`, moderate increases
otherwise. -/
theorem c8_interpretation_policy :
    ∀ (n : ℕ) (r : ℝ),
      (n ≤ 2 ∧ r > 0.5 →
        peak_interpretation n r = "Peak driven by a few extreme consumers.")
      ∧ (n > 2 ∧ r > 0.5 →
        peak_interpretation n r = "Peak driven by several high-usage apartments.")
      ∧ (r ≤ 0.5 →
        peak_interpretation n r = "Peak caused by moderate increases across apartments.") := by
  intro n r
  refine ⟨?_, ?_, ?_⟩ <;> intro h <;> simp only [peak_interpretation]
  · rw [if_pos h]
  · rw [if_neg, if_pos h]
    rintro ⟨h2, _⟩
    omega
  · rw [if_neg, if_neg]
    · rintro ⟨_, hr⟩
      linarith
    · rintro ⟨_, hr⟩
      linarith

/-- Witness for C8: one significant apartment with contribution `0.6` is
interpreted as a few extreme consumers. -/
theorem c8_interpretation_policy_witness :
    peak_interpretation 1 0.6 = "Peak driven by a few extreme consumers." :=
  (c8_interpretation_policy 1 0.6).1 ⟨by norm_num, by norm_num⟩

/-- Claim C9: the high-consumption flag vector (threshold
`mean + 0.7 * std` of the averages) and the peak-hour flag vector
(threshold `mean + k * std` of the hourly averages, any `k ≥ 0`) are never
all-true on nonempty input: some index always stays unflagged, because the
threshold is at least the mean of the compared values. -/
theorem c9_not_all_flagged :
    ∀ (avg tavg : List ℝ) (k : ℝ), avg ≠ [] → tavg ≠ [] → 0 ≤ k →
      (∃ i, i < avg.length ∧
        ¬ (compute_high_consumption_flags avg
            (compute_population_usage_statistics avg).1
            (compute_population_usage_statistics avg).2.2).2 i)
      ∧ (∃ j, j < tavg.length ∧ ¬ (compute_peak_time_intervals tavg k).2 j) := by
  intro avg tavg k ha ht hk
  constructor
  · have h07 : (0 : ℝ) ≤ 0.7 * popStd avg := by
      have := popStd_nonneg avg
      nlinarith
    obtain ⟨i, hi, hni⟩ := exists_getD_le ha
      (le_add_of_nonneg_right h07 : mean avg ≤ mean avg + 0.7 * popStd avg)
    exact ⟨i, hi, by
      simpa [compute_high_consumption_flags, compute_population_usage_statistics]
        using hni⟩
  · have hks : (0 : ℝ) ≤ k * popStd tavg := mul_nonneg hk (popStd_nonneg _)
    obtain ⟨j, hj, hnj⟩ := exists_getD_le ht
      (le_add_of_nonneg_right hks : mean tavg ≤ mean tavg + k * popStd tavg)
    exact ⟨j, hj, by simpa [compute_peak_time_intervals] using hnj⟩

/-- Witness for C9: on averages `[2, 6]` and hourly averages `[1, 2, 3]`
with `k = 0.8`, some apartment and some hour stay unflagged. -/
theorem c9_not_all_flagged_witness :
    (∃ i, i < ([(2 : ℝ), 6]).length ∧
      ¬ (compute_high_consumption_flags [(2 : ℝ), 6]
          (compute_population_usage_statistics [(2 : ℝ), 6]).1
          (compute_population_usage_statistics [(2 : ℝ), 6]).2.2).2 i)
    ∧ (∃ j, j < ([(1 : ℝ), 2, 3]).length ∧
        ¬ (compute_peak_time_intervals [(1 : ℝ), 2, 3] 0.8).2 j) :=
  c9_not_all_flagged [(2 : ℝ), 6] [(1 : ℝ), 2, 3] 0.8 (by simp) (by simp)
    (by norm_num)

/-- Claim C2: `compute_apartment_coefficient_of_variation` on the pipeline's
per-apartment averages and stds rejects the whole computation (an error,
no partial result) iff some apartment average is exactly `0`; otherwise it
returns `std[i] / avg[i]` for every `i`, and the stability score is
`1 / (1 + cv[i])`, always in `(0, 1]`. -/
theorem c2_coefficient_of_variation :
    ∀ (M : List (List ℝ)) (A H : ℕ), IsRect M A H →
      (∀ r ∈ M, ∀ x ∈ r, 0 ≤ x) →
      (compute_apartment_coefficient_of_variation
          (compute_apartment_energy_averages M) (compute_apartment_std M)
        = Except.error ("Can not divide by zero.")
        ↔ ∃ i, i < A ∧ (compute_apartment_energy_averages M).getD i 0 = 0)
      ∧ ∀ cv, compute_apartment_coefficient_of_variation
            (compute_apartment_energy_averages M) (compute_apartment_std M)
          = Except.ok cv →
          ∀ i, i < A →
            cv.getD i 0 = (compute_apartment_std M).getD i 0 /
              (compute_apartment_energy_averages M).getD i 0
            ∧ (compute_stability_scores cv).getD i 0 = 1 / (1 + cv.getD i 0)
            ∧ 0 < (compute_stability_scores cv).getD i 0
            ∧ (compute_stability_scores cv).getD i 0 ≤ 1 := by
  intro M A H hr hpos
  set avg := compute_apartment_energy_averages M with havg
  set std := compute_apartment_std M with hstd
  have hlenavg : avg.length = A := by rw [havg]; simpa [compute_apartment_energy_averages] using hr.1
  have hlenstd : std.length = A := by rw [hstd]; simpa [compute_apartment_std] using hr.1
  have hiff : (∃ x ∈ avg, x = 0) ↔ ∃ i, i < A ∧ avg.getD i 0 = 0 := by
    constructor
    · rintro ⟨x, hx, hx0⟩
      obtain ⟨i, hi, hg⟩ := (mem_iff_getD 0 x avg).mp hx
      exact ⟨i, hlenavg ▸ hi, by rw [hg, hx0]⟩
    · rintro ⟨i, hi, h0⟩
      exact ⟨avg.getD i 0, getD_mem 0 avg i (hlenavg ▸ hi), h0⟩
  by_cases hc : ∃ x ∈ avg, x = 0
  · constructor
    · simp only [compute_apartment_coefficient_of_variation, if_pos hc]
      exact ⟨fun _ => hiff.mp hc, fun _ => trivial⟩
    · intro cv hok
      exfalso
      simp only [compute_apartment_coefficient_of_variation, if_pos hc] at hok
      exact Except.noConfusion hok
  · constructor
    · simp only [compute_apartment_coefficient_of_variation, if_neg hc]
      have hno : ¬ ∃ i, i < A ∧ avg.getD i 0 = 0 := fun h => hc (hiff.mpr h)
      exact iff_of_false (fun h => Except.noConfusion h) hno
    · intro cv hok i hi
      simp only [compute_apartment_coefficient_of_variation, if_neg hc,
        Except.ok.injEq] at hok
      have hi' : i < M.length := by rw [hr.1]; exact hi
      have hcv : cv.getD i 0 = std.getD i 0 / avg.getD i 0 := by
        rw [← hok]
        exact getD_zipWith (fun s a => s / a) 0 0 std avg i
          (hlenstd ▸ hi) (hlenavg ▸ hi)
      have hcvlen : cv.length = A := by
        rw [← hok, List.length_zipWith, hlenstd, hlenavg, min_self]
      have hscore : (compute_stability_scores cv).getD i 0 = 1 / (1 + cv.getD i 0) :=
        getD_map (fun c => 1 / (1 + c)) 0 0 cv i (hcvlen ▸ hi)
      have havgnn : 0 ≤ avg.getD i 0 := by
        rw [havg]
        show 0 ≤ (M.map mean).getD i 0
        rw [getD_map mean 0 [] M i hi']
        exact mean_nonneg (hpos _ (getD_mem [] M i hi'))
      have havgne : avg.getD i 0 ≠ 0 := by
        intro h0
        exact hc ⟨avg.getD i 0, getD_mem 0 avg i (hlenavg ▸ hi), h0⟩
      have havgpos : 0 < avg.getD i 0 := lt_of_le_of_ne havgnn (Ne.symm havgne)
      have hstdnn : 0 ≤ std.getD i 0 := by
        rw [hstd]
        show 0 ≤ (M.map popStd).getD i 0
        rw [getD_map popStd 0 [] M i hi']
        exact popStd_nonneg _
      have hcvnn : 0 ≤ cv.getD i 0 := by
        rw [hcv]
        exact div_nonneg hstdnn havgnn
      refine ⟨hcv, hscore, ?_, ?_⟩
      · rw [hscore]
        positivity
      · rw [hscore]
        rw [div_le_one (by linarith)]
        linarith

/-- Witness for C2: on the example matrix (all averages positive) the
error-iff characterisation holds. -/
theorem c2_coefficient_of_variation_witness :
    compute_apartment_coefficient_of_variation
        (compute_apartment_energy_averages exampleMatrix)
        (compute_apartment_std exampleMatrix)
      = Except.error ("Can not divide by zero.")
      ↔ ∃ i, i < 2 ∧ (compute_apartment_energy_averages exampleMatrix).getD i 0 = 0 :=
  (c2_coefficient_of_variation exampleMatrix 2 3
    (by constructor <;> simp [exampleMatrix])
    (by intro r hr x hx; fin_cases hr <;> fin_cases hx <;> norm_num)).1

theorem listMin_mem : ∀ l : List ℝ, l ≠ [] → listMin l ∈ l
  | [x], _ => by simp [listMin]
  | x :: y :: t, _ => by
    show min x (listMin (y :: t)) ∈ x :: y :: t
    rcases le_total x (listMin (y :: t)) with h | h
    · rw [min_eq_left h]
      exact List.mem_cons_self _ _
    · rw [min_eq_right h]
      exact List.mem_cons_of_mem _ (listMin_mem (y :: t) (by simp))

theorem listMin_le : ∀ (l : List ℝ) (a : ℝ), a ∈ l → listMin l ≤ a
  | [x], a, ha => by
    simp only [List.mem_singleton] at ha
    simp [listMin, ha]
  | x :: y :: t, a, ha => by
    show min x (listMin (y :: t)) ≤ a
    rcases List.mem_cons.mp ha with rfl | ha'
    · exact min_le_left _ _
    · exact le_trans (min_le_right _ _) (listMin_le (y :: t) a ha')

theorem listMax_mem : ∀ l : List ℝ, l ≠ [] → listMax l ∈ l
  | [x], _ => by simp [listMax]
  | x :: y :: t, _ => by
    show max x (listMax (y :: t)) ∈ x :: y :: t
    rcases le_total x (listMax (y :: t)) with h | h
    · rw [max_eq_right h]
      exact List.mem_cons_of_mem _ (listMax_mem (y :: t) (by simp))
    · rw [max_eq_left h]
      exact List.mem_cons_self _ _

theorem le_listMax : ∀ (l : List ℝ) (a : ℝ), a ∈ l → a ≤ listMax l
  | [x], a, ha => by
    simp only [List.mem_singleton] at ha
    simp [listMax, ha]
  | x :: y :: t, a, ha => by
    show a ≤ max x (listMax (y :: t))
    rcases List.mem_cons.mp ha with rfl | ha'
    · exact le_max_left _ _
    · exact le_trans (le_listMax (y :: t) a ha') (le_max_right _ _)

theorem listMin_eq {l : List ℝ} {c : ℝ} (hm : c ∈ l) (hle : ∀ x ∈ l, c ≤ x) :
    listMin l = c :=
  le_antisymm (listMin_le l c hm) (hle _ (listMin_mem l (List.ne_nil_of_mem hm)))

theorem listMax_eq {l : List ℝ} {c : ℝ} (hm : c ∈ l) (hle : ∀ x ∈ l, x ≤ c) :
    listMax l = c :=
  le_antisymm (hle _ (listMax_mem l (List.ne_nil_of_mem hm)))
    (le_listMax l c hm)

theorem col_map_rows (M : List (List ℝ)) (w : ℕ) (g : ℕ → ℝ → ℝ) {j : ℕ}
    (hj : j < w) :
    col (M.map (fun row => (List.range w).map (fun j' => g j' (row.getD j' 0)))) j
      = (col M j).map (fun v => g j v) := by
  unfold col
  rw [List.map_map, List.map_map]
  apply List.map_congr_left
  intro r _
  simp only [Function.comp_apply]
  exact getD_range_map 0 w (fun j' => g j' (r.getD j' 0)) j hj

theorem normalized_getD (M : List (List ℝ)) (w : ℕ) (g : ℕ → ℝ → ℝ) {i j : ℕ}
    (hi : i < M.length) (hj : j < w) :
    ((M.map (fun row => (List.range w).map (fun j' =>
        g j' (row.getD j' 0)))).getD i []).getD j 0
      = g j ((M.getD i []).getD j 0) := by
  rw [getD_map (fun row : List ℝ => (List.range w).map (fun j' =>
    g j' (row.getD j' 0))) [] [] M i hi]
  exact getD_range_map 0 w _ j hj

/-- Claim C3: min-max normalization rejects the whole matrix iff some
column's max equals its min; otherwise it keeps the shape `(A, H)`, each
entry is `(v - min_col) / (max_col - min_col)`, and every output column
attains minimum `0` and maximum `1`. -/
theorem c3_min_max_normalize :
    ∀ (M : List (List ℝ)) (A H : ℕ), IsRect M A H → 1 ≤ A →
      (compute_min_max_normalized_profiles M
        = Except.error ("Cannot normalize: at least one hour has zero variance")
        ↔ ∃ j, j < H ∧ listMax (col M j) = listMin (col M j))
      ∧ ∀ N, compute_min_max_normalized_profiles M = Except.ok N →
          N.length = A
          ∧ (∀ row ∈ N, row.length = H)
          ∧ (∀ i, i < A → ∀ j, j < H →
              (N.getD i []).getD j 0 =
                ((M.getD i []).getD j 0 - listMin (col M j)) /
                  (listMax (col M j) - listMin (col M j)))
          ∧ (∀ j, j < H → listMin (col N j) = 0 ∧ listMax (col N j) = 1) := by
  intro M A H hr hA
  have hw : width M = H := width_eq hr hA
  have hiff : (∃ j < width M, listMax (col M j) - listMin (col M j) = 0)
      ↔ ∃ j, j < H ∧ listMax (col M j) = listMin (col M j) := by
    rw [hw]
    constructor
    · rintro ⟨j, hj, h0⟩
      exact ⟨j, hj, by linarith⟩
    · rintro ⟨j, hj, h0⟩
      exact ⟨j, hj, by linarith⟩
  by_cases hc : ∃ j < width M, listMax (col M j) - listMin (col M j) = 0
  · constructor
    · simp only [compute_min_max_normalized_profiles, if_pos hc]
      exact ⟨fun _ => hiff.mp hc, fun _ => trivial⟩
    · intro N hok
      exfalso
      simp only [compute_min_max_normalized_profiles, if_pos hc] at hok
      exact Except.noConfusion hok
  · have hrange : ∀ j, j < H → listMax (col M j) - listMin (col M j) ≠ 0 := by
      push_neg at hc
      intro j hj
      exact hc j (hw ▸ hj)
    constructor
    · simp only [compute_min_max_normalized_profiles, if_neg hc]
      exact iff_of_false (fun h => Except.noConfusion h)
        (fun h => hc (hiff.mpr h))
    · intro N hok
      simp only [compute_min_max_normalized_profiles, if_neg hc,
        Except.ok.injEq] at hok
      have hNdef : N = M.map (fun row => (List.range (width M)).map (fun j =>
          (row.getD j 0 - listMin (col M j)) /
            (listMax (col M j) - listMin (col M j)))) := hok.symm
      subst hNdef
      refine ⟨by simpa using hr.1, ?_, ?_, ?_⟩
      · intro row hrow
        obtain ⟨r, _, rfl⟩ := List.mem_map.mp hrow
        simp [hw]
      · intro i hi j hj
        have hi' : i < M.length := by rw [hr.1]; exact hi
        exact normalized_getD M (width M) (fun j' v =>
          (v - listMin (col M j')) / (listMax (col M j') - listMin (col M j')))
          hi' (by rw [hw]; exact hj)
      · intro j hj
        have hcolj := col_map_rows M (width M) (fun j' v =>
          (v - listMin (col M j')) / (listMax (col M j') - listMin (col M j')))
          (by rw [hw]; exact hj)
        rw [hcolj]
        have hcne : col M j ≠ [] := col_ne_nil hr hA j
        have hmnmem := listMin_mem _ hcne
        have hmxmem := listMax_mem _ hcne
        have hle : listMin (col M j) ≤ listMax (col M j) :=
          listMin_le _ _ hmxmem
        have hne := hrange j hj
        have hpos : 0 < listMax (col M j) - listMin (col M j) := by
          rcases lt_or_eq_of_le hle with h | h
          · linarith
          · exfalso; exact hne (by linarith)
        constructor
        · apply listMin_eq
          · refine List.mem_map.mpr ⟨listMin (col M j), hmnmem, ?_⟩
            show (listMin (col M j) - listMin (col M j)) /
              (listMax (col M j) - listMin (col M j)) = 0
            rw [sub_self, zero_div]
          · intro x hx
            obtain ⟨v, hv, rfl⟩ := List.mem_map.mp hx
            exact div_nonneg (by linarith [listMin_le _ _ hv]) (le_of_lt hpos)
        · apply listMax_eq
          · refine List.mem_map.mpr ⟨listMax (col M j), hmxmem, ?_⟩
            show (listMax (col M j) - listMin (col M j)) /
              (listMax (col M j) - listMin (col M j)) = 1
            rw [div_self hne]
          · intro x hx
            obtain ⟨v, hv, rfl⟩ := List.mem_map.mp hx
            rw [div_le_one hpos]
            have := le_listMax _ _ hv
            linarith

/-- Witness for C3: the example matrix has no constant column, so the
error characterisation and the normalized-output laws apply to it. -/
theorem c3_min_max_normalize_witness :
    compute_min_max_normalized_profiles exampleMatrix
      = Except.error ("Cannot normalize: at least one hour has zero variance")
      ↔ ∃ j, j < 3 ∧ listMax (col exampleMatrix j) = listMin (col exampleMatrix j) :=
  (c3_min_max_normalize exampleMatrix 2 3
    (by constructor <;> simp [exampleMatrix]) (by norm_num)).1

/-- Claim C4: z-score normalization rejects the whole matrix iff some
column's population std is exactly `0`; otherwise it keeps the shape
`(A, H)`, each entry is `(v - mean_col) / std_col`, and every output
column has mean `0` and population std `1` exactly. -/
theorem c4_z_score_normalize :
    ∀ (M : List (List ℝ)) (A H : ℕ), IsRect M A H → 1 ≤ A →
      (compute_z_score_normalized_profiles M
        = Except.error ("Cannot z-normalize: at least one hour has zero std")
        ↔ ∃ j, j < H ∧ popStd (col M j) = 0)
      ∧ ∀ N, compute_z_score_normalized_profiles M = Except.ok N →
          N.length = A
          ∧ (∀ row ∈ N, row.length = H)
          ∧ (∀ i, i < A → ∀ j, j < H →
              (N.getD i []).getD j 0 =
                ((M.getD i []).getD j 0 - mean (col M j)) / popStd (col M j))
          ∧ (∀ j, j < H → mean (col N j) = 0 ∧ popStd (col N j) = 1) := by
  intro M A H hr hA
  have hw : width M = H := width_eq hr hA
  by_cases hc : ∃ j < width M, popStd (col M j) = 0
  · constructor
    · simp only [compute_z_score_normalized_profiles, if_pos hc]
      refine ⟨fun _ => ?_, fun _ => trivial⟩
      obtain ⟨j, hj, h0⟩ := hc
      exact ⟨j, hw ▸ hj, h0⟩
    · intro N hok
      exfalso
      simp only [compute_z_score_normalized_profiles, if_pos hc] at hok
      exact Except.noConfusion hok
  · have hstd : ∀ j, j < H → popStd (col M j) ≠ 0 := by
      push_neg at hc
      intro j hj
      exact hc j (hw ▸ hj)
    constructor
    · simp only [compute_z_score_normalized_profiles, if_neg hc]
      refine iff_of_false (fun h => Except.noConfusion h) ?_
      rintro ⟨j, hj, h0⟩
      exact hc ⟨j, hw ▸ hj, h0⟩
    · intro N hok
      simp only [compute_z_score_normalized_profiles, if_neg hc,
        Except.ok.injEq] at hok
      subst hok
      refine ⟨by simpa using hr.1, ?_, ?_, ?_⟩
      · intro row hrow
        obtain ⟨r, _, rfl⟩ := List.mem_map.mp hrow
        simp [hw]
      · intro i hi j hj
        have hi' : i < M.length := by rw [hr.1]; exact hi
        exact normalized_getD M (width M) (fun j' v =>
          (v - mean (col M j')) / popStd (col M j')) hi' (by rw [hw]; exact hj)
      · intro j hj
        have hcolj := col_map_rows M (width M) (fun j' v =>
          (v - mean (col M j')) / popStd (col M j')) (by rw [hw]; exact hj)
        rw [hcolj]
        set m := mean (col M j) with hm
        set s := popStd (col M j) with hsdef
        have hs : s ≠ 0 := hstd j hj
        have hcne : col M j ≠ [] := col_ne_nil hr hA j
        have hfun : (fun v => (fun j' v => (v - mean (col M j')) /
            popStd (col M j')) j v) = fun v => (1 / s) * v + (-(m / s)) := by
          funext v
          show (v - m) / s = (1 / s) * v + (-(m / s))
          field_simp
          ring
        rw [hfun]
        have hmean0 : mean ((col M j).map fun v => (1 / s) * v + (-(m / s))) = 0 := by
          rw [mean_map_affine _ _ hcne, ← hm]
          field_simp
        have hvar : popVar ((col M j).map fun v => (1 / s) * v + (-(m / s)))
            = (1 / s) ^ 2 * popVar (col M j) := popVar_map_affine _ _ hcne
        have hs2 : s ^ 2 = popVar (col M j) := Real.sq_sqrt (popVar_nonneg _)
        have hvar1 : popVar ((col M j).map fun v => (1 / s) * v + (-(m / s))) = 1 := by
          rw [hvar, ← hs2]
          field_simp
        exact ⟨hmean0, by rw [popStd, hvar1, Real.sqrt_one]⟩

/-- Witness for C4: the example matrix has no zero-std column, so the
error characterisation applies to it. -/
theorem c4_z_score_normalize_witness :
    compute_z_score_normalized_profiles exampleMatrix
      = Except.error ("Cannot z-normalize: at least one hour has zero std")
      ↔ ∃ j, j < 3 ∧ popStd (col exampleMatrix j) = 0 :=
  (c4_z_score_normalize exampleMatrix 2 3
    (by constructor <;> simp [exampleMatrix]) (by norm_num)).1

theorem sum_filter_nonneg_le (p : ℝ → Bool) :
    ∀ l : List ℝ, (∀ x ∈ l, 0 ≤ x) → (l.filter p).sum ≤ l.sum := by
  intro l
  induction l with
  | nil => simp
  | cons a l ih =>
    intro h
    have ha : 0 ≤ a := h a (List.mem_cons_self _ _)
    have hl := ih (fun x hx => h x (List.mem_cons_of_mem _ hx))
    by_cases hp : p a
    · simpa [List.filter_cons, hp] using hl
    · simp only [List.filter_cons, hp, Bool.false_eq_true, if_false, List.sum_cons]
      linarith

theorem peakLoop_eq_some (M : List (List ℝ)) (flags : List Bool) :
    ∀ L : List ℕ, (∀ j ∈ L, j < flags.length ∧ ∀ r ∈ M, j < r.length) →
      peakLoop M flags L = some ((L.filter (fun j => flags.getD j false)).map
        (fun j => hourRecord j (col M j)))
  | [], _ => rfl
  | j :: rest, h => by
    have hj := h j (List.mem_cons_self _ _)
    have hrest := peakLoop_eq_some M flags rest
      (fun j' hj' => h j' (List.mem_cons_of_mem _ hj'))
    have hget : flags.get? j = some (flags.getD j false) :=
      get?_eq_some_getD false flags j hj.1
    have hgE : flags[j]? = some (flags.getD j false) := by
      rw [← List.get?_eq_getElem?]
      exact hget
    have hbE : flags[j] = flags.getD j false :=
      (List.getD_eq_getElem flags false hj.1).symm
    have hcol : colGet? M j = some (col M j) := if_pos hj.2
    cases hb : flags.getD j false with
    | false =>
      rw [hb] at hget hgE hbE
      simp [peakLoop, hget, hgE, hbE, hrest, List.filter_cons, hb]
    | true =>
      rw [hb] at hget hgE hbE
      simp [peakLoop, hget, hgE, hbE, hcol, hrest, List.filter_cons, hb]

theorem peakLoop_isSome_iff (M : List (List ℝ)) (flags : List Bool) :
    ∀ L : List ℕ, (∃ l, peakLoop M flags L = some l)
      ↔ ∀ j ∈ L, j < flags.length ∧
          (flags.getD j false = true → ∀ r ∈ M, j < r.length)
  | [] => by simp [peakLoop]
  | j :: rest => by
    have ih := peakLoop_isSome_iff M flags rest
    have ihE := ih
    simp only [List.getD_eq_getElem?_getD] at ihE
    by_cases hjlen : j < flags.length
    · have hget : flags.get? j = some (flags.getD j false) :=
        get?_eq_some_getD false flags j hjlen
      have hgE : flags[j]? = some (flags.getD j false) := by
        rw [← List.get?_eq_getElem?]
        exact hget
      have hbE : flags[j] = flags.getD j false :=
        (List.getD_eq_getElem flags false hjlen).symm
      cases hb : flags.getD j false with
      | false =>
        rw [hb] at hget hgE hbE
        simp [peakLoop, hget, hgE, hbE, hjlen, hb, ihE]
      | true =>
        rw [hb] at hget hgE hbE
        by_cases hcol : ∀ r ∈ M, j < r.length
        · have hc : colGet? M j = some (col M j) := if_pos hcol
          simp only [peakLoop, hget, hgE, hbE, hc, hjlen, hb, hcol, ih,
            Option.map_eq_some', List.forall_mem_cons, true_implies, true_and,
            if_true]
          constructor
          · rintro ⟨l, a, ha, rfl⟩
            exact ⟨hcol, ih.mp ⟨a, ha⟩⟩
          · rintro ⟨-, hrest⟩
            obtain ⟨a, ha⟩ := ih.mpr hrest
            exact ⟨hourRecord j (col M j) :: a, a, ha, rfl⟩
        · have hc : colGet? M j = none := if_neg hcol
          simp [peakLoop, hget, hgE, hbE, hc, hjlen, hb, hcol]
    · have hget : flags.get? j = none := get?_eq_none_of_le flags j (by omega)
      have hgE : flags[j]? = none := by
        rw [← List.get?_eq_getElem?]
        exact hget
      simp [peakLoop, hget, hgE, hjlen]

theorem peakLoop_hour_mem (M : List (List ℝ)) (flags : List Bool) :
    ∀ (L : List ℕ) (l : List PeakRecord), peakLoop M flags L = some l →
      ∀ rec ∈ l, rec.hour_index ∈ L
  | [], l, h => by
    simp only [peakLoop, Option.some.injEq] at h
    subst h
    simp
  | j :: rest, l, h => by
    cases hget : flags.get? j with
    | none =>
      simp only [peakLoop, hget] at h
      exact Option.noConfusion h
    | some b =>
      cases b with
      | false =>
        simp only [peakLoop, hget, Bool.false_eq_true, if_false] at h
        intro rec hrec
        exact List.mem_cons_of_mem _ (peakLoop_hour_mem M flags rest l h rec hrec)
      | true =>
        simp only [peakLoop, hget, if_true] at h
        cases hcol : colGet? M j with
        | none =>
          rw [hcol] at h
          simp at h
        | some hd =>
          rw [hcol] at h
          obtain ⟨l', hl', rfl⟩ := Option.map_eq_some'.mp h
          intro rec hrec
          rcases List.mem_cons.mp hrec with rfl | htail
          · exact List.mem_cons_self _ _
          · exact List.mem_cons_of_mem _
              (peakLoop_hour_mem M flags rest l' hl' rec htail)

/-- Claim C6: with matching widths (`numCols = H = len(flags)`, as in the
program), peak-contribution analysis succeeds and returns exactly one
record per flagged hour, in strictly ascending hour order and none for
unflagged hours; a value is significant iff it strictly exceeds the column
mean plus column population std, the ratio is `significant_sum / column_sum`
(`0` when the column sums to `0`), and on non-negative data every ratio
lies in `[0, 1]`. -/
theorem c6_peak_contribution :
    ∀ (M : List (List ℝ)) (A H : ℕ) (flags : List Bool),
      IsRect M A H → flags.length = H → (∀ r ∈ M, ∀ x ∈ r, 0 ≤ x) →
      ∃ l, compute_peak_contribution_distribution H M flags = some l
        ∧ l.map PeakRecord.hour_index
            = (List.range H).filter (fun j => flags.getD j false)
        ∧ (l.map PeakRecord.hour_index).Pairwise (fun a b => a < b)
        ∧ (∀ j, j < H →
            (flags.getD j false = true ↔ j ∈ l.map PeakRecord.hour_index))
        ∧ ∀ rec ∈ l,
            rec.significant_apartments
              = (significantValues (col M rec.hour_index)).length
            ∧ (∀ x, x ∈ significantValues (col M rec.hour_index)
                ↔ x ∈ col M rec.hour_index
                  ∧ x > mean (col M rec.hour_index) + popStd (col M rec.hour_index))
            ∧ rec.total_energy = (col M rec.hour_index).sum
            ∧ ((col M rec.hour_index).sum = 0 → rec.contribution_ratio = 0)
            ∧ ((col M rec.hour_index).sum ≠ 0 → rec.contribution_ratio
                = (significantValues (col M rec.hour_index)).sum
                  / (col M rec.hour_index).sum)
            ∧ 0 ≤ rec.contribution_ratio ∧ rec.contribution_ratio ≤ 1 := by
  intro M A H flags hr hflen hpos
  have hbound : ∀ j ∈ List.range H, j < flags.length ∧ ∀ r ∈ M, j < r.length := by
    intro j hj
    have hjH : j < H := List.mem_range.mp hj
    exact ⟨by omega, fun r hrM => by rw [hr.2 r hrM]; exact hjH⟩
  have hloop := peakLoop_eq_some M flags (List.range H) hbound
  set l := ((List.range H).filter (fun j => flags.getD j false)).map
    (fun j => hourRecord j (col M j)) with hl
  refine ⟨l, hloop, ?_, ?_, ?_, ?_⟩
  · rw [hl, List.map_map]
    have : (PeakRecord.hour_index ∘ fun j => hourRecord j (col M j)) = id := by
      funext j
      rfl
    rw [this, List.map_id]
  · have hmap : l.map PeakRecord.hour_index
        = (List.range H).filter (fun j => flags.getD j false) := by
      rw [hl, List.map_map]
      have : (PeakRecord.hour_index ∘ fun j => hourRecord j (col M j)) = id := by
        funext j
        rfl
      rw [this, List.map_id]
    rw [hmap]
    exact List.Pairwise.sublist (List.filter_sublist _) (List.pairwise_lt_range H)
  · intro j hj
    have hmap : l.map PeakRecord.hour_index
        = (List.range H).filter (fun j => flags.getD j false) := by
      rw [hl, List.map_map]
      have : (PeakRecord.hour_index ∘ fun j => hourRecord j (col M j)) = id := by
        funext j
        rfl
      rw [this, List.map_id]
    rw [hmap, List.mem_filter, List.mem_range]
    constructor
    · intro hb
      exact ⟨hj, hb⟩
    · intro hb
      exact hb.2
  · intro rec hrec
    rw [hl] at hrec
    obtain ⟨j, hjf, rfl⟩ := List.mem_map.mp hrec
    simp only [hourRecord]
    have hjH : j < H := List.mem_range.mp (List.mem_filter.mp hjf).1
    have hnn : ∀ x ∈ col M j, 0 ≤ x := col_mem_nonneg hr hpos hjH
    have hsumnn : 0 ≤ (col M j).sum := List.sum_nonneg hnn
    have hsignn : 0 ≤ (significantValues (col M j)).sum :=
      List.sum_nonneg (fun x hx =>
        hnn x (List.mem_filter.mp hx).1)
    have hsigle : (significantValues (col M j)).sum ≤ (col M j).sum :=
      sum_filter_nonneg_le _ _ hnn
    refine ⟨trivial, ?_, trivial, ?_, ?_, ?_, ?_⟩
    · intro x
      simp [significantValues, List.mem_filter]
    · intro h0
      show (if (col M j).sum > 0 then (significantValues (col M j)).sum
        / (col M j).sum else 0) = 0
      rw [if_neg (by rw [h0]; exact lt_irrefl 0)]
    · intro hne
      have hpos' : (col M j).sum > 0 := lt_of_le_of_ne hsumnn (Ne.symm hne)
      show (if (col M j).sum > 0 then (significantValues (col M j)).sum
        / (col M j).sum else 0) = (significantValues (col M j)).sum / (col M j).sum
      rw [if_pos hpos']
    · show 0 ≤ (if (col M j).sum > 0 then (significantValues (col M j)).sum
        / (col M j).sum else 0)
      by_cases hp : (col M j).sum > 0
      · rw [if_pos hp]
        exact div_nonneg hsignn hsumnn
      · rw [if_neg hp]
    · show (if (col M j).sum > 0 then (significantValues (col M j)).sum
        / (col M j).sum else 0) ≤ 1
      by_cases hp : (col M j).sum > 0
      · rw [if_pos hp, div_le_one hp]
        exact hsigle
      · rw [if_neg hp]
        norm_num

/-- Witness for C6: on the example matrix with flags `[true, false, true]`
the analysis succeeds and every contribution ratio is in `[0, 1]`. -/
theorem c6_peak_contribution_witness :
    ∃ l, compute_peak_contribution_distribution 3 exampleMatrix
        [true, false, true] = some l
      ∧ ∀ rec ∈ l, 0 ≤ rec.contribution_ratio ∧ rec.contribution_ratio ≤ 1 := by
  obtain ⟨l, h1, -, -, -, h5⟩ := c6_peak_contribution exampleMatrix 2 3
    [true, false, true] (by constructor <;> simp [exampleMatrix]) (by simp)
    (by intro r hr x hx; fin_cases hr <;> fin_cases hx <;> norm_num)
  exact ⟨l, h1, fun rec hrec => (h5 rec hrec).2.2.2.2.2⟩

/-- Claim C10: the peak-contribution loop iterates hour indices
`0 … len(columns) - 1`, not the matrix width `H` or the flag vector's
length, so every produced record has `hour_index < numCols` and a flagged
hour at a larger index yields no record; and (for a nonempty matrix) the
loop indexes safely for every flag vector of length `F` iff
`numCols ≤ min H F`. -/
theorem c10_iteration_bounds :
    ∀ (numCols : ℕ) (M : List (List ℝ)) (A H F : ℕ), IsRect M A H → 1 ≤ A →
      (∀ (flags : List Bool) (l : List PeakRecord),
        compute_peak_contribution_distribution numCols M flags = some l →
        ∀ rec ∈ l, rec.hour_index < numCols)
      ∧ ((∀ flags : List Bool, flags.length = F →
            ∃ l, compute_peak_contribution_distribution numCols M flags = some l)
          ↔ numCols ≤ min H F) := by
  intro numCols M A H F hr hA
  constructor
  · intro flags l hsome rec hrec
    exact List.mem_range.mp
      (peakLoop_hour_mem M flags (List.range numCols) l hsome rec hrec)
  · constructor
    · intro hall
      have hrep := hall (List.replicate F true) (by simp)
      have hchar := (peakLoop_isSome_iff M (List.replicate F true)
        (List.range numCols)).mp hrep
      have hF : numCols ≤ F := by
        by_contra hFc
        push_neg at hFc
        have := (hchar F (List.mem_range.mpr hFc)).1
        simp at this
      have hH : numCols ≤ H := by
        by_contra hHc
        push_neg at hHc
        have hmem := hchar H (List.mem_range.mpr hHc)
        have hHF : H < F := by simpa using hmem.1
        have htrue : (List.replicate F true).getD H false = true :=
          getD_replicate_bool true F H hHF
        have hrow := hmem.2 htrue
        have hM : 0 < M.length := by rw [hr.1]; omega
        have hrmem : M.getD 0 [] ∈ M := getD_mem [] M 0 hM
        have hlt := hrow _ hrmem
        rw [hr.2 _ hrmem] at hlt
        omega
      exact le_min hH hF
    · intro hmin flags hflen
      have hF : numCols ≤ F := le_trans hmin (min_le_right H F)
      have hH : numCols ≤ H := le_trans hmin (min_le_left H F)
      apply (peakLoop_isSome_iff M flags (List.range numCols)).mpr
      intro j hj
      have hjn : j < numCols := List.mem_range.mp hj
      refine ⟨by rw [hflen]; omega, fun _ r hrM => ?_⟩
      rw [hr.2 r hrM]
      omega

/-- Witness for C10: on the 2×3 example matrix, safety for all 3-flag
vectors holds iff `3 ≤ min 3 3`. -/
theorem c10_iteration_bounds_witness :
    (∀ flags : List Bool, flags.length = 3 →
      ∃ l, compute_peak_contribution_distribution 3 exampleMatrix flags = some l)
    ↔ 3 ≤ min 3 3 :=
  (c10_iteration_bounds 3 exampleMatrix 2 3 3
    (by constructor <;> simp [exampleMatrix]) (by norm_num)).2

instance (scores : List ℚ) : IsTotal ℕ (scoreLe scores) := ⟨fun i j => by
  unfold scoreLe
  rcases lt_trichotomy (scores.getD i 0) (scores.getD j 0) with h | h | h
  · exact Or.inl (Or.inl h)
  · rcases le_total i j with hij | hij
    · exact Or.inl (Or.inr ⟨h, hij⟩)
    · exact Or.inr (Or.inr ⟨h.symm, hij⟩)
  · exact Or.inr (Or.inl h)⟩

instance (scores : List ℚ) : IsTrans ℕ (scoreLe scores) := ⟨fun a b c hab hbc => by
  unfold scoreLe at hab hbc ⊢
  rcases hab with h1 | ⟨e1, le1⟩
  · rcases hbc with h2 | ⟨e2, le2⟩
    · exact Or.inl (h1.trans h2)
    · exact Or.inl (by rw [← e2]; exact h1)
  · rcases hbc with h2 | ⟨e2, le2⟩
    · exact Or.inl (by rw [e1]; exact h2)
    · exact Or.inr ⟨e1.trans e2, le1.trans le2⟩⟩

/-- Claim C1, counterexample: on scores `[0.9, 0.1, 0.5, 0.9, 0.2]` with
`top_n = 3`, the code returns most-stable `[3, 0, 2]` — not `[0, 3, 2]` as
the claim states: reversing the stable ascending argsort puts the higher
index first among the two tied scores. -/
theorem c1_rank_stability_counterexample :
    rank_stability [9/10, 1/10, 1/2, 9/10, 1/5] 3 = ([3, 0, 2], [1, 4, 2])
    ∧ (rank_stability [9/10, 1/10, 1/2, 9/10, 1/5] 3).1 ≠ [0, 3, 2] := by
  have h : rank_stability [9/10, 1/10, 1/2, 9/10, 1/5] 3 = ([3, 0, 2], [1, 4, 2]) := by
    norm_num [rank_stability, argsort, List.insertionSort, List.orderedInsert,
      scoreLe, List.range_succ, takeLast]
  refine ⟨h, ?_⟩
  rw [h]
  decide

/-- Claim C1 (amended): `rank_stability` returns the `top_n` lowest-scoring
indices in ascending score order with ties broken by lower original index
first, and the `top_n` highest-scoring indices in descending score order
with ties broken by HIGHER original index first (the most-stable list is
the reversal of a slice of the stable ascending argsort); on the example
scores the most-stable list is `[3, 0, 2]` and the least-stable `[1, 4, 2]`. -/
theorem c1_rank_stability :
    ∀ (scores : List ℚ) (n : ℕ),
      (argsort scores).Perm (List.range scores.length)
      ∧ List.Sorted (scoreLe scores) (argsort scores)
      ∧ (rank_stability scores n).2 = (argsort scores).take n
      ∧ List.Sorted (scoreLe scores) (rank_stability scores n).2
      ∧ (n ≠ 0 → (rank_stability scores n).1
          = ((argsort scores).drop (scores.length - n)).reverse)
      ∧ List.Sorted (fun i j => scoreLe scores j i) (rank_stability scores n).1
      ∧ (∀ k, ∀ i ∈ (argsort scores).take k, ∀ j ∈ (argsort scores).drop k,
          scoreLe scores i j)
      ∧ rank_stability [9/10, 1/10, 1/2, 9/10, 1/5] 3 = ([3, 0, 2], [1, 4, 2]) := by
  intro scores n
  have hperm : (argsort scores).Perm (List.range scores.length) :=
    List.perm_insertionSort _ _
  have hsorted : List.Sorted (scoreLe scores) (argsort scores) :=
    List.sorted_insertionSort _ _
  have hlen : (argsort scores).length = scores.length := by
    rw [argsort, List.length_insertionSort, List.length_range]
  refine ⟨hperm, hsorted, rfl, ?_, ?_, ?_, ?_, ?_⟩
  · exact List.Pairwise.sublist (List.take_sublist _ _) hsorted
  · intro hn
    show (takeLast (argsort scores) n).reverse
      = ((argsort scores).drop (scores.length - n)).reverse
    rw [takeLast, if_neg hn, hlen]
  · show List.Sorted (fun i j => scoreLe scores j i)
      (takeLast (argsort scores) n).reverse
    apply List.pairwise_reverse.mpr
    rw [takeLast]
    split_ifs
    · exact hsorted
    · exact List.Pairwise.sublist (List.drop_sublist _ _) hsorted
  · intro k i hi j hj
    have hsplit : (argsort scores).take k ++ (argsort scores).drop k
        = argsort scores := List.take_append_drop k (argsort scores)
    have hp : List.Pairwise (scoreLe scores)
        ((argsort scores).take k ++ (argsort scores).drop k) := by
      rw [hsplit]
      exact hsorted
    exact (List.pairwise_append.mp hp).2.2 i hi j hj
  · norm_num [rank_stability, argsort, List.insertionSort, List.orderedInsert,
      scoreLe, List.range_succ, takeLast]

/-- Witness for C1: with `top_n = 3 ≠ 0` on the example scores the
most-stable list is the reversed tail slice of the argsort. -/
theorem c1_rank_stability_witness :
    (rank_stability [9/10, 1/10, 1/2, 9/10, 1/5] 3).1
      = ((argsort [9/10, 1/10, 1/2, 9/10, 1/5]).drop
          (([9/10, 1/10, 1/2, 9/10, 1/5] : List ℚ).length - 3)).reverse :=
  ((c1_rank_stability [9/10, 1/10, 1/2, 9/10, 1/5] 3).2.2.2.2.1) (by norm_num)
